import Mathlib

/-!
Verification of the DNH-Code-Scraper detection-and-structuring engine.

Shallow embedding of the pure (post-fetch) logic of the scraper:
the ethics-term matcher, the line classifier of `pdf_generator.py`,
the sibling-run body extractor of `municode_parser.py`, the parser
factory dispatch of `parser_factory.py`, the detection-only platform
parsers, and the progress tracker of `utils.py`.

Python string primitives are modelled over their ASCII fragment
(`str.lower`, `str.strip`, `str.isdigit`, the regex classes `[A-Z]`,
`\d`, `\s`); every vocabulary phrase and every pattern the source
matches against is ASCII, so this fragment is exact on the data the
program manipulates.
-/

/-! ## Python string primitives (ASCII fragment) -/

/-- Python `\s` / `str.strip` whitespace, ASCII fragment:
space, tab, newline, carriage return, vertical tab, form feed. -/
def pyIsSpace (c : Char) : Bool :=
  c == ' ' || c == '\t' || c == '\n' || c == '\r' || c == '\x0b' || c == '\x0c'

/-- Python `str.lower` on one character (ASCII fragment): maps `A`-`Z`
to `a`-`z` and leaves everything else unchanged. -/
def pyLowerChar (c : Char) : Char :=
  if 'A' ≤ c ∧ c ≤ 'Z' then Char.ofNat (c.toNat + 32) else c

/-- Python `str.lower` (ASCII fragment). -/
def pyLower (s : String) : String :=
  ⟨s.data.map pyLowerChar⟩

/-- Python `str.strip` on a character list: drop leading and trailing
whitespace. -/
def pyStripL (cs : List Char) : List Char :=
  ((cs.dropWhile pyIsSpace).reverse.dropWhile pyIsSpace).reverse

/-- Python `str.strip`. -/
def pyStrip (s : String) : String :=
  ⟨pyStripL s.data⟩

/-- Python `needle in hay` on strings: substring containment. -/
def pySubstr (needle hay : List Char) : Bool :=
  decide (needle <:+: hay)

/-- Words of a character list: maximal runs of non-whitespace characters
(the list-level core of Python `str.split()` with no argument). -/
def pyWordsL : List Char → List (List Char)
  | [] => []
  | c :: cs =>
    if pyIsSpace c then pyWordsL cs
    else
      match pyWordsL cs, cs with
      | w :: ws, d :: _ =>
        if pyIsSpace d then [c] :: w :: ws else (c :: w) :: ws
      | _, _ => [[c]]

/-- Python `str.split()` with no argument: split on whitespace runs,
discarding empty pieces. -/
def pySplitWords (s : String) : List String :=
  (pyWordsL s.data).map (fun w => ⟨w⟩)

/-- Python `str.isdigit` (ASCII fragment): non-empty and all digits. -/
def pyIsDigitStr (cs : List Char) : Bool :=
  !cs.isEmpty && cs.all Char.isDigit

/-! ## `config.py` -/

namespace config

/-- `config.ETHICS_TERMS`: the search-term vocabulary for ethics codes
(case-insensitive substring triggers). -/
def ETHICS_TERMS : List String :=
  [ "code of ethics"
  , "code of conduct"
  , "ethics code"
  , "professional conduct"
  , "standards of conduct"
  , "ethical standards"
  , "conduct code"
  , "rules of conduct"
  , "employee conduct"
  , "ethics policy"
  , "ethics"
  , "conflict of interest"
  , "conflicts of interest" ]

end config

/-! ## `municode_parser.py`: the term matcher -/

namespace MunicodeParser

/-- `MunicodeParser.search_for_ethics_sections`: lowercase the text and
test whether any configured term occurs in it as a substring. -/
def search_for_ethics_sections (text : String) : Bool :=
  config.ETHICS_TERMS.any (fun term => pySubstr term.data (pyLower text).data)

end MunicodeParser

/-! ## Whitespace-padding and substring lemmas for the term matcher -/

lemma pyLowerChar_of_space {c : Char} (hc : pyIsSpace c = true) : pyLowerChar c = c := by
  simp only [pyIsSpace, Bool.or_eq_true, beq_iff_eq] at hc
  rcases hc with ((((h | h) | h) | h) | h) | h <;> subst h <;> decide

lemma map_lower_ws {w : List Char} (hw : ∀ c ∈ w, pyIsSpace c = true) :
    w.map pyLowerChar = w := by
  induction w with
  | nil => rfl
  | cons c w ih =>
    simp only [List.map_cons, pyLowerChar_of_space (hw c (by simp)), List.cons.injEq, true_and]
    exact ih (fun d hd => hw d (by simp [hd]))

lemma infix_cons_elim {α : Type} {t : List α} {c : α} {l : List α}
    (h : t <:+: c :: l) : t <+: c :: l ∨ t <:+: l := by
  obtain ⟨s, u, he⟩ := h
  cases s with
  | nil => exact Or.inl ⟨u, by simpa using he⟩
  | cons a s' =>
    right
    rw [List.cons_append, List.cons_append] at he
    injection he with h1 h2
    exact ⟨s', u, h2⟩

lemma infix_rev {α : Type} {a b : List α} (h : a <:+: b) :
    a.reverse <:+: b.reverse := by
  obtain ⟨s, u, he⟩ := h
  exact ⟨u.reverse, s.reverse, by
    rw [← he]; simp [List.reverse_append, List.append_assoc]⟩

lemma infix_rev_iff {α : Type} {a b : List α} :
    a.reverse <:+: b.reverse ↔ a <:+: b :=
  ⟨fun h => by simpa using infix_rev h, infix_rev⟩

lemma infix_ws_cons {th c : Char} {tt l : List Char}
    (hc : pyIsSpace c = true) (hth : pyIsSpace th = false) :
    (th :: tt) <:+: c :: l ↔ (th :: tt) <:+: l := by
  constructor
  · intro h
    rcases infix_cons_elim h with hp | hi
    · obtain ⟨u, he⟩ := hp
      rw [List.cons_append] at he
      injection he with h1 _
      simp [h1, hc] at hth
    · exact hi
  · intro h
    exact h.trans (List.suffix_cons c l).isInfix

lemma infix_ws_append {th : Char} {tt : List Char} (hth : pyIsSpace th = false) :
    ∀ (w l : List Char), (∀ c ∈ w, pyIsSpace c = true) →
      ((th :: tt) <:+: w ++ l ↔ (th :: tt) <:+: l)
  | [], l, _ => by simp
  | c :: w, l, hw => by
    rw [List.cons_append, infix_ws_cons (hw c (by simp)) hth,
      infix_ws_append hth w l (fun d hd => hw d (by simp [hd]))]

lemma infix_pad {t l w₁ w₂ : List Char}
    (hw₁ : ∀ c ∈ w₁, pyIsSpace c = true) (hw₂ : ∀ c ∈ w₂, pyIsSpace c = true)
    (ht : t ≠ []) (hhead : pyIsSpace t.headI = false)
    (hlast : pyIsSpace t.reverse.headI = false) :
    t <:+: w₁ ++ l ++ w₂ ↔ t <:+: l := by
  obtain ⟨th, tt, rfl⟩ := List.exists_cons_of_ne_nil ht
  simp only [List.headI] at hhead
  rw [List.append_assoc, infix_ws_append hhead w₁ (l ++ w₂) hw₁]
  rw [← infix_rev_iff (a := th :: tt), List.reverse_append]
  obtain ⟨rh, rt, hrev⟩ := List.exists_cons_of_ne_nil
    (show (th :: tt).reverse ≠ [] by simp)
  have hrh : pyIsSpace rh = false := by
    have h := hlast; rw [hrev] at h; simpa using h
  rw [hrev, infix_ws_append hrh w₂.reverse l.reverse
    (fun c hc => hw₂ c (List.mem_reverse.mp hc)), ← hrev, infix_rev_iff]

lemma term_facts {l : String} (hl : l ∈ config.ETHICS_TERMS) :
    l.data ≠ [] ∧ pyIsSpace l.data.headI = false ∧
      pyIsSpace l.data.reverse.headI = false := by
  fin_cases hl <;> exact ⟨by decide, by decide, by decide⟩

lemma term_lower {l : String} (hl : l ∈ config.ETHICS_TERMS) : pyLower l = l := by
  fin_cases hl <;> decide

lemma search_eq_of_pad (T w₁ w₂ : String)
    (hw₁ : ∀ c ∈ w₁.data, pyIsSpace c = true)
    (hw₂ : ∀ c ∈ w₂.data, pyIsSpace c = true) :
    MunicodeParser.search_for_ethics_sections (w₁ ++ T ++ w₂)
      = MunicodeParser.search_for_ethics_sections T := by
  unfold MunicodeParser.search_for_ethics_sections
  rw [Bool.eq_iff_iff]
  simp only [List.any_eq_true, pySubstr, decide_eq_true_eq]
  have hdata : (pyLower (w₁ ++ T ++ w₂)).data
      = w₁.data ++ (pyLower T).data ++ w₂.data := by
    show (w₁ ++ T ++ w₂).data.map pyLowerChar = _
    simp only [String.data_append, List.map_append]
    rw [map_lower_ws hw₁, map_lower_ws hw₂]
    rfl
  constructor
  · rintro ⟨l, hl, h⟩
    obtain ⟨h1, h2, h3⟩ := term_facts hl
    exact ⟨l, hl, (infix_pad hw₁ hw₂ h1 h2 h3).mp (hdata ▸ h)⟩
  · rintro ⟨l, hl, h⟩
    obtain ⟨h1, h2, h3⟩ := term_facts hl
    exact ⟨l, hl, hdata ▸ (infix_pad hw₁ hw₂ h1 h2 h3).mpr h⟩

lemma strip_decomp (cs : List Char) :
    ∃ w₁ w₂, (∀ c ∈ w₁, pyIsSpace c = true) ∧ (∀ c ∈ w₂, pyIsSpace c = true) ∧
      cs = w₁ ++ pyStripL cs ++ w₂ := by
  refine ⟨cs.takeWhile pyIsSpace,
    ((cs.dropWhile pyIsSpace).reverse.takeWhile pyIsSpace).reverse,
    fun c hc => List.mem_takeWhile_imp hc,
    fun c hc => List.mem_takeWhile_imp (List.mem_reverse.mp hc), ?_⟩
  rw [List.append_assoc]
  conv_lhs => rw [← List.takeWhile_append_dropWhile (p := pyIsSpace) (l := cs)]
  congr 1
  conv_lhs => rw [← List.reverse_reverse (cs.dropWhile pyIsSpace),
    ← List.takeWhile_append_dropWhile (p := pyIsSpace)
      (l := (cs.dropWhile pyIsSpace).reverse)]
  rw [List.reverse_append]
  rfl

lemma search_strip (T : String) :
    MunicodeParser.search_for_ethics_sections (pyStrip T)
      = MunicodeParser.search_for_ethics_sections T := by
  obtain ⟨w₁, w₂, h1, h2, hdec⟩ := strip_decomp T.data
  have hT : T = (⟨w₁⟩ : String) ++ pyStrip T ++ ⟨w₂⟩ := by
    cases T
    simp only [pyStrip]
    exact congrArg String.mk hdec
  conv_rhs => rw [hT]
  exact (search_eq_of_pad (pyStrip T) ⟨w₁⟩ ⟨w₂⟩ h1 h2).symm

/-- C1: for every string `T`, `search_for_ethics_sections T` is true iff some
configured vocabulary phrase occurs as a case-insensitive substring of `T`;
the result is unchanged when leading or trailing whitespace is added to `T`
or stripped from `T`. -/
theorem ethics_matcher_correct :
    (∀ T : String, MunicodeParser.search_for_ethics_sections T = true ↔
        ∃ l ∈ config.ETHICS_TERMS, (pyLower l).data <:+: (pyLower T).data) ∧
    (∀ T w₁ w₂ : String, (∀ c ∈ w₁.data, pyIsSpace c = true) →
        (∀ c ∈ w₂.data, pyIsSpace c = true) →
        MunicodeParser.search_for_ethics_sections (w₁ ++ T ++ w₂)
          = MunicodeParser.search_for_ethics_sections T) ∧
    (∀ T : String, MunicodeParser.search_for_ethics_sections (pyStrip T)
        = MunicodeParser.search_for_ethics_sections T) := by
  refine ⟨?_, fun T w₁ w₂ h1 h2 => search_eq_of_pad T w₁ w₂ h1 h2, search_strip⟩
  intro T
  unfold MunicodeParser.search_for_ethics_sections
  simp only [List.any_eq_true, pySubstr, decide_eq_true_eq]
  constructor
  · rintro ⟨l, hl, h⟩; exact ⟨l, hl, by rw [term_lower hl]; exact h⟩
  · rintro ⟨l, hl, h⟩; exact ⟨l, hl, by rw [term_lower hl] at h; exact h⟩

theorem ethics_matcher_correct_witness :
    MunicodeParser.search_for_ethics_sections (" " ++ "Code of Ethics" ++ "\t")
      = MunicodeParser.search_for_ethics_sections "Code of Ethics" :=
  ethics_matcher_correct.2.1 "Code of Ethics" " " "\t" (by decide) (by decide)

/-! ## `pdf_generator.py`: the line classifier (`format_section_content`)

The classifier walks the stripped lines with one line of lookahead and
emits one content block per step: a fused section heading, a definition
block, an enumerated item, or a paragraph.  The source renders each block
directly as an HTML `div`/`p` fragment; here each emitted fragment is
represented by the corresponding `ContentBlock` constructor.  (The inline
span decoration of `§` references inside a paragraph, and the HTML
escaping applied before splitting, are rendering concerns that do not
change which blocks are produced or which lines they consume.) -/

namespace PDFGenerator

/-- `is_caps_term`: full match of `[A-Z][A-Z0-9 \-]{2,}`. -/
def is_caps_term (s : String) : Bool :=
  match s.data with
  | c :: rest =>
    c.isUpper && decide (2 ≤ rest.length)
      && rest.all (fun d => d.isUpper || d.isDigit || d == ' ' || d == '-')
  | [] => false

/-- The group of the marker pattern: a single uppercase letter, or one to
three digits optionally followed by one uppercase letter. -/
def markerCore : List Char → Bool
  | [c] => c.isUpper || c.isDigit
  | cs =>
    let ds := cs.takeWhile Char.isDigit
    let rest := cs.dropWhile Char.isDigit
    decide (1 ≤ ds.length) && decide (ds.length ≤ 3)
      && (rest.isEmpty || (match rest with | [u] => u.isUpper | _ => false))

/-- `is_marker`: full match of `([A-Z]|\d{1,3}[A-Z]?)\.`, returning the
group (the marker without its trailing period). -/
def is_marker (s : String) : Option String :=
  match s.data.getLast? with
  | some '.' => if markerCore s.data.dropLast then some ⟨s.data.dropLast⟩ else none
  | _ => none

/-- `is_section_symbol`: anchored match of `^§\s*\d`. -/
def is_section_symbol (s : String) : Bool :=
  match s.data with
  | '§' :: rest =>
    match rest.dropWhile pyIsSpace with
    | c :: _ => c.isDigit
    | [] => false
  | _ => false

/-- The semantic document model produced by the classifier (one
constructor per emitted fragment shape). -/
inductive ContentBlock where
  | heading (symbol : String) (title : String)
  | definitionTerm (term : String) (definition : String)
  | enumeratedItem (marker : String) (body : String)
  | paragraph (text : String)
deriving DecidableEq

/-- The stop set ending a definition or enumerated-item body: a blank
line, an all-caps term, a section-symbol line, or a marker line. -/
def stopLine (s : String) : Bool :=
  s == "" || is_caps_term s || is_section_symbol s || (is_marker s).isSome

/-- `" ".join(parts).strip()`. -/
def joinBody (parts : List String) : String :=
  pyStrip (String.intercalate " " parts)

/-- The non-heading branches of one loop iteration: definition term,
enumerated item, or default paragraph.  Returns the emitted block and the
lines remaining after the consumed ones. -/
def classifyRest (ln : String) (rest : List String) :
    Option ContentBlock × List String :=
  if is_caps_term ln then
    (some (.definitionTerm ln (joinBody (rest.takeWhile (fun l => !stopLine l)))),
      rest.dropWhile (fun l => !stopLine l))
  else
    match is_marker ln with
    | some mark =>
      (some (.enumeratedItem mark (joinBody (rest.takeWhile (fun l => !stopLine l)))),
        rest.dropWhile (fun l => !stopLine l))
    | none => (some (.paragraph ln), rest)

/-- One iteration of the classifier loop: skip a blank line, fuse a
section-symbol line with its title line, or fall through to
`classifyRest`. -/
def classifyStep (ln : String) (rest : List String) :
    Option ContentBlock × List String :=
  if ln = "" then (none, rest)
  else
    match rest with
    | nxt :: rest2 =>
      if is_section_symbol ln ∧ nxt ≠ "" ∧ ¬is_section_symbol nxt = true then
        (some (.heading ln nxt), rest2)
      else classifyRest ln rest
    | [] => classifyRest ln rest

theorem classifyStep_snd_le (ln : String) (rest : List String) :
    (classifyStep ln rest).2.length ≤ rest.length := by
  have hr : ∀ l r, (classifyRest l r).2.length ≤ r.length := by
    intro l r
    unfold classifyRest
    split
    · exact (List.dropWhile_sublist _).length_le
    · split
      · exact (List.dropWhile_sublist _).length_le
      · exact Nat.le_refl _
  unfold classifyStep
  split
  · exact Nat.le_refl _
  · split
    · split
      · simp
      · exact hr ln _
    · exact hr ln _

/-- The classifier loop of `format_section_content`: one block (at most)
per iteration, each iteration consuming at least one line. -/
def classifyLines : List String → List ContentBlock
  | [] => []
  | ln :: rest =>
    (classifyStep ln rest).1.toList ++ classifyLines (classifyStep ln rest).2
termination_by ls => ls.length
decreasing_by
  simp only [List.length_cons]
  exact Nat.lt_succ_of_le (classifyStep_snd_le ln rest)

theorem classifyLines_length_le (ls : List String) :
    (classifyLines ls).length ≤ ls.length := by
  match ls with
  | [] => simp [classifyLines]
  | ln :: rest =>
    have ih := classifyLines_length_le (classifyStep ln rest).2
    have hle := classifyStep_snd_le ln rest
    rw [classifyLines, List.length_append]
    have h1 : (classifyStep ln rest).1.toList.length ≤ 1 := by
      cases (classifyStep ln rest).1 <;> simp
    simp only [List.length_cons]
    omega
termination_by ls.length
decreasing_by exact Nat.lt_succ_of_le (classifyStep_snd_le ln rest)

theorem blank_head_skip (ls : List String) :
    classifyLines ("" :: ls) = classifyLines ls := by
  rw [classifyLines]
  simp [classifyStep]

lemma takeWhile_notStop_append_blank (rest : List String) :
    List.takeWhile (fun l => !stopLine l) (rest ++ [""])
      = List.takeWhile (fun l => !stopLine l) rest := by
  induction rest with
  | nil => simp [List.takeWhile]; decide
  | cons a rest ih =>
    simp only [List.cons_append, List.takeWhile_cons]
    split <;> simp [ih]

lemma dropWhile_notStop_append_blank (rest : List String) :
    List.dropWhile (fun l => !stopLine l) (rest ++ [""])
      = List.dropWhile (fun l => !stopLine l) rest ++ [""] := by
  induction rest with
  | nil => simp [List.dropWhile]; decide
  | cons a rest ih =>
    simp only [List.cons_append, List.dropWhile_cons]
    split <;> simp [ih]

lemma classifyRest_append_blank (ln : String) (rest : List String) :
    classifyRest ln (rest ++ [""])
      = ((classifyRest ln rest).1, (classifyRest ln rest).2 ++ [""]) := by
  unfold classifyRest
  split
  · simp [takeWhile_notStop_append_blank, dropWhile_notStop_append_blank]
  · split
    · simp [takeWhile_notStop_append_blank, dropWhile_notStop_append_blank]
    · simp

lemma classifyStep_append_blank (ln : String) (rest : List String) :
    classifyStep ln (rest ++ [""])
      = ((classifyStep ln rest).1, (classifyStep ln rest).2 ++ [""]) := by
  unfold classifyStep
  by_cases hln : ln = ""
  · simp [hln]
  · simp only [if_neg hln]
    match rest with
    | [] =>
      simp only [List.nil_append]
      have : ¬(is_section_symbol ln = true ∧ "" ≠ "" ∧ ¬is_section_symbol "" = true) := by
        intro ⟨_, h, _⟩; exact h rfl
      rw [if_neg this]
      exact classifyRest_append_blank ln []
    | nxt :: rest2 =>
      simp only [List.cons_append]
      split
      · simp
      · exact classifyRest_append_blank ln (nxt :: rest2)

theorem blank_tail_skip (ls : List String) :
    classifyLines (ls ++ [""]) = classifyLines ls := by
  match ls with
  | [] =>
    show classifyLines [""] = classifyLines []
    rw [classifyLines]
    simp [classifyStep, classifyLines]
  | ln :: rest =>
    have ih := blank_tail_skip (classifyStep ln rest).2
    rw [List.cons_append, classifyLines, classifyStep_append_blank]
    rw [classifyLines]
    simpa using ih
termination_by ls.length
decreasing_by exact Nat.lt_succ_of_le (classifyStep_snd_le ln rest)

end PDFGenerator

/-- C2: classifying the six-line input produces exactly three blocks, in
order: a heading fusing the symbol line with its title, an enumerated
item with marker `A`, and a definition block. -/
theorem classifier_roundtrip_example :
    PDFGenerator.classifyLines ["§ 54-3", "Declaration of policy.", "A.",
      "No employee shall accept gifts.", "CONFLICT OF INTEREST",
      "Exists when a private interest competes with duty."]
    = [.heading "§ 54-3" "Declaration of policy.",
       .enumeratedItem "A" "No employee shall accept gifts.",
       .definitionTerm "CONFLICT OF INTEREST"
         "Exists when a private interest competes with duty."] := by
  have hm : PDFGenerator.is_marker "A." = some "A" := by decide
  have hp : PDFGenerator.is_marker "No employee shall accept gifts." = none := by decide
  have hq : PDFGenerator.is_marker
      "Exists when a private interest competes with duty." = none := by decide
  simp +decide [PDFGenerator.classifyLines, PDFGenerator.classifyStep,
    PDFGenerator.classifyRest, hm, hp, hq]

/-- C8: the classifier is a total function, and on every finite list of
input lines (including the empty list) it emits at most as many blocks as
there are input lines. -/
theorem classifier_total_and_bounded (ls : List String) :
    (PDFGenerator.classifyLines ls).length ≤ ls.length :=
  PDFGenerator.classifyLines_length_le ls

/-- C9 counterexample: removing the interior blank line changes the
output — with the blank, the enumerated body is `"x"` and `"y"` becomes a
separate paragraph; without it, the body is `"x y"`.  Blank lines also
terminate in-progress bodies, so they are not mere separators. -/
theorem blank_lines_not_only_separators :
    PDFGenerator.classifyLines ["A.", "x", "", "y"]
      ≠ PDFGenerator.classifyLines
          (["A.", "x", "", "y"].filter (fun l => l ≠ "")) := by
  have hm : PDFGenerator.is_marker "A." = some "A" := by decide
  have hx : PDFGenerator.is_marker "x" = none := by decide
  have hy : PDFGenerator.is_marker "y" = none := by decide
  simp +decide [PDFGenerator.classifyLines, PDFGenerator.classifyStep,
    PDFGenerator.classifyRest, hm, hx, hy]

/-- C9 (amended): a blank line never produces a block and is dropped when
it stands at the head of the remaining input or at the end of the input;
an interior blank line, however, additionally terminates a
definition/enumeration body (and blocks heading fusion), so classification
is not invariant under removing all blank lines. -/
theorem blank_lines_separator_amended :
    (∀ ls, PDFGenerator.classifyLines ("" :: ls) = PDFGenerator.classifyLines ls) ∧
    (∀ ls, PDFGenerator.classifyLines (ls ++ [""]) = PDFGenerator.classifyLines ls) :=
  ⟨PDFGenerator.blank_head_skip, PDFGenerator.blank_tail_skip⟩

/-! ## `municode_parser.py`: the chapter-level skip rule of
`find_ethics_sections` (Municipal Code Online branch) -/

namespace MunicodeParser

/-- The chapter-level skip test: the heading's first word, with all
hyphens and dots removed, passes `str.isdigit`, and the first word has
fewer than two dots and fewer than two hyphens. -/
def isChapterLevel (heading_text : String) : Bool :=
  match pySplitWords heading_text with
  | [] => false
  | first_word :: _ =>
    pyIsDigitStr (first_word.data.filter (fun c => !(c == '-') && !(c == '.')))
      && decide (first_word.data.count '.' < 2)
      && decide (first_word.data.count '-' < 2)

end MunicodeParser

/-- The chapter-level rule as the specification words it: the leading
token consists only of digits, hyphens and dots, with fewer than two dots
and fewer than two hyphens.  (Stated for refinement comparison with
`isChapterLevel`.) -/
def specChapterLevel (heading_text : String) : Bool :=
  match pySplitWords heading_text with
  | [] => false
  | first_word :: _ =>
    first_word.data.all (fun c => c.isDigit || c == '-' || c == '.')
      && decide (first_word.data.count '.' < 2)
      && decide (first_word.data.count '-' < 2)

/-- The amended chapter-level rule: the leading token consists only of
digits, hyphens and dots, contains at least one digit, and has fewer than
two dots and fewer than two hyphens (`str.isdigit` is false on the empty
residue left when a token has no digits). -/
def amendedChapterLevel (heading_text : String) : Bool :=
  match pySplitWords heading_text with
  | [] => false
  | first_word :: _ =>
    (first_word.data.all (fun c => c.isDigit || c == '-' || c == '.')
        && first_word.data.any Char.isDigit)
      && decide (first_word.data.count '.' < 2)
      && decide (first_word.data.count '-' < 2)

/-- C5 counterexample: the heading `"- Ethics"` has a leading token made
only of hyphens, so the specification's rule classifies it chapter-level,
but the code does not skip it (`"".isdigit()` is false); its text matches
an ethics term, so it is retained as a candidate. -/
theorem chapter_skip_cex :
    MunicodeParser.isChapterLevel "- Ethics" = false ∧
    specChapterLevel "- Ethics" = true ∧
    MunicodeParser.search_for_ethics_sections "- Ethics" = true := by
  refine ⟨by decide, by decide, by decide⟩

lemma filter_all_digit (cs : List Char) :
    ((cs.filter (fun c => !(c == '-') && !(c == '.'))).all Char.isDigit)
      = cs.all (fun c => c.isDigit || c == '-' || c == '.') := by
  induction cs with
  | nil => rfl
  | cons c cs ih =>
    by_cases h1 : c = '-'
    · subst h1; simpa using ih
    · by_cases h2 : c = '.'
      · subst h2; simpa using ih
      · by_cases h3 : c.isDigit
        · simp [List.filter_cons, List.all_cons, h1, h2, h3, ih]
        · simp [List.filter_cons, List.all_cons, h1, h2, h3, ih]

lemma digit_filter_eq (cs : List Char) :
    pyIsDigitStr (cs.filter (fun c => !(c == '-') && !(c == '.')))
      = (cs.all (fun c => c.isDigit || c == '-' || c == '.')
          && cs.any Char.isDigit) := by
  induction cs with
  | nil => rfl
  | cons c cs ih =>
    by_cases h1 : c = '-'
    · subst h1
      simpa [pyIsDigitStr, List.filter_cons, List.all_cons, List.any_cons] using ih
    · by_cases h2 : c = '.'
      · subst h2
        simpa [pyIsDigitStr, List.filter_cons, List.all_cons, List.any_cons] using ih
      · by_cases h3 : c.isDigit
        · have hfc : List.filter (fun d => !(d == '-') && !(d == '.')) (c :: cs)
              = c :: List.filter (fun d => !(d == '-') && !(d == '.')) cs := by
            simp [List.filter_cons, h1, h2]
          rw [hfc]
          simp only [pyIsDigitStr, List.isEmpty_cons, Bool.not_false, Bool.true_and,
            List.all_cons, List.any_cons, h3, Bool.true_or, Bool.or_true, Bool.and_true]
          exact filter_all_digit cs
        · simp [pyIsDigitStr, List.filter_cons, List.all_cons, List.any_cons,
            h1, h2, h3]

/-- C5 (amended): a heading is skipped as chapter-level iff its leading
token consists only of digits, hyphens and dots, *contains at least one
digit*, and has fewer than two dots and fewer than two hyphens; in
particular `"3 Ethics"` is excluded as chapter-level while
`"3.12.090 Conflicts of interest"` is retained (its text matches an ethics
term). -/
theorem chapter_skip_amended :
    (∀ t : String, MunicodeParser.isChapterLevel t = true
        ↔ amendedChapterLevel t = true) ∧
    MunicodeParser.isChapterLevel "3 Ethics" = true ∧
    (MunicodeParser.isChapterLevel "3.12.090 Conflicts of interest" = false ∧
      MunicodeParser.search_for_ethics_sections
        "3.12.090 Conflicts of interest" = true) := by
  refine ⟨?_, by decide, by decide, by decide⟩
  intro t
  unfold MunicodeParser.isChapterLevel amendedChapterLevel
  cases h : pySplitWords t with
  | nil => simp
  | cons w rest => simp [digit_filter_eq]

/-! ## `municode_parser.py`: sibling-run body extraction
(`find_ethics_sections`, Municipal Code Online branch)

The walk over `parent.next_siblings` accumulates visible text into
`content_parts`, stopping at the next `phx-name`/`phx-docs` div or at a
sibling whose text starts with a section-number pattern; after each
sibling the source checks `sum(len(p) for p in content_parts) > 5000` and
breaks.  A sibling is modelled by what the walk inspects: a bare string
node, a `div` with its class list and visible text, any other
text-bearing element, or an element without text. -/

namespace MunicodeParser

inductive Sibling where
  | text (s : String)
  | div (classes : List String) (txt : String)
  | node (txt : String)
  | inert

def headIsDigit : List Char → Bool
  | c :: _ => c.isDigit
  | [] => false

def startsWithSectionNumber (cs : List Char) (allowHyphen : Bool) : Bool :=
  decide (3 < cs.length) && headIsDigit cs
    && ((cs.take 10).contains '.' || (allowHyphen && (cs.take 10).contains '-'))

def sibStep (parts : List String) : Sibling → Option (List String)
  | .text t =>
    let text := pyStrip t
    if text = "" then some parts
    else if startsWithSectionNumber text.data true then none
    else some (parts ++ [text])
  | .div classes txt =>
    if classes.contains "phx-name" || classes.contains "phx-docs" then none
    else if txt = "" then some parts
    else if startsWithSectionNumber txt.data false then none
    else some (parts ++ [txt])
  | .node txt =>
    if txt = "" then some parts
    else if startsWithSectionNumber txt.data false then none
    else some (parts ++ [txt])
  | .inert => some parts

def totalLen (parts : List String) : Nat :=
  (parts.map (fun p => p.data.length)).sum

def walkSiblings : List Sibling → List String → List String
  | [], parts => parts
  | sib :: rest, parts =>
    match sibStep parts sib with
    | none => parts
    | some parts2 =>
      if 5000 < totalLen parts2 then parts2 else walkSiblings rest parts2

def sibTextLen : Sibling → Nat
  | .text t => (pyStrip t).data.length
  | .div _ txt => txt.data.length
  | .node txt => txt.data.length
  | .inert => 0

def maxSibLen (sibs : List Sibling) : Nat :=
  (sibs.map sibTextLen).foldr max 0

lemma totalLen_append (a b : List String) :
    totalLen (a ++ b) = totalLen a + totalLen b := by
  simp [totalLen]

lemma sibStep_total_le {parts : List String} {sib : Sibling} {parts2 : List String}
    (h : sibStep parts sib = some parts2) :
    totalLen parts2 ≤ totalLen parts + sibTextLen sib := by
  cases sib with
  | text t =>
    simp only [sibStep] at h
    split at h
    · cases h; exact Nat.le_add_right _ _
    · split at h
      · cases h
      · cases h
        simp [totalLen_append, totalLen, sibTextLen]
  | div classes txt =>
    simp only [sibStep] at h
    split at h
    · cases h
    · split at h
      · cases h; exact Nat.le_add_right _ _
      · split at h
        · cases h
        · cases h
          simp [totalLen_append, totalLen, sibTextLen]
  | node txt =>
    simp only [sibStep] at h
    split at h
    · cases h; exact Nat.le_add_right _ _
    · split at h
      · cases h
      · cases h
        simp [totalLen_append, totalLen, sibTextLen]
  | inert =>
    simp only [sibStep] at h
    cases h
    exact Nat.le_add_right _ _

lemma sibTextLen_le_maxSibLen (sib : Sibling) (rest : List Sibling) :
    sibTextLen sib ≤ maxSibLen (sib :: rest) := by
  simp only [maxSibLen, List.map_cons, List.foldr_cons]
  exact le_max_left _ _

lemma maxSibLen_tail_le (sib : Sibling) (rest : List Sibling) :
    maxSibLen rest ≤ maxSibLen (sib :: rest) := by
  simp only [maxSibLen, List.map_cons, List.foldr_cons]
  exact le_max_right _ _

theorem walk_cap (sibs : List Sibling) (parts : List String)
    (h : totalLen parts ≤ 5000) :
    totalLen (walkSiblings sibs parts) ≤ 5000 + maxSibLen sibs := by
  induction sibs generalizing parts with
  | nil => exact le_trans h (Nat.le_add_right _ _)
  | cons sib rest ih =>
    simp only [walkSiblings]
    cases hs : sibStep parts sib with
    | none => exact le_trans h (Nat.le_add_right _ _)
    | some parts2 =>
      have hb := sibStep_total_le hs
      by_cases hc : 5000 < totalLen parts2
      · simp only [if_pos hc]
        calc totalLen parts2 ≤ totalLen parts + sibTextLen sib := hb
          _ ≤ 5000 + sibTextLen sib := Nat.add_le_add_right h _
          _ ≤ 5000 + maxSibLen (sib :: rest) :=
            Nat.add_le_add_left (sibTextLen_le_maxSibLen sib rest) _
      · simp only [if_neg hc]
        calc totalLen (walkSiblings rest parts2)
            ≤ 5000 + maxSibLen rest := ih parts2 (Nat.le_of_not_lt hc)
          _ ≤ 5000 + maxSibLen (sib :: rest) :=
            Nat.add_le_add_left (maxSibLen_tail_le sib rest) _


theorem walk_scenario (t1 t2 t3 : String) (sibs : List Sibling)
    (h1 : t1 ≠ "") (h2 : t2 ≠ "") (h3 : t3 ≠ "")
    (n1 : startsWithSectionNumber t1.data false = false)
    (n2 : startsWithSectionNumber t2.data false = false)
    (n3 : startsWithSectionNumber t3.data false = false)
    (hlen : totalLen [t1, t2, t3] ≤ 5000) :
    walkSiblings (.node t1 :: .node t2 :: .node t3 ::
        .div [] "54.070 Next section heading" :: sibs) [] = [t1, t2, t3] := by
  have c1 : ¬(5000 < totalLen [t1]) := by
    simp only [totalLen, List.map, List.sum_cons, List.sum_nil] at hlen ⊢
    omega
  have c2 : ¬(5000 < totalLen [t1, t2]) := by
    simp only [totalLen, List.map, List.sum_cons, List.sum_nil] at hlen ⊢
    omega
  have c3 : ¬(5000 < totalLen [t1, t2, t3]) := by
    simp only [totalLen, List.map, List.sum_cons, List.sum_nil] at hlen ⊢
    omega
  simp +decide [walkSiblings, sibStep, h1, h2, h3, n1, n2, n3, c1, c2, c3]

theorem walk_cap_cex :
    5000 < totalLen (walkSiblings [.node ⟨List.replicate 5001 'a'⟩] []) := by
  have hdata : (⟨List.replicate 5001 'a'⟩ : String).data = List.replicate 5001 'a' := rfl
  have hs : (⟨List.replicate 5001 'a'⟩ : String) ≠ "" := by
    intro h
    have hd : List.replicate 5001 'a' = ([] : List Char) := congrArg String.data h
    have hlen0 := congrArg List.length hd
    rw [List.length_replicate, List.length_nil] at hlen0
    exact absurd hlen0 (by decide)
  have hdig : ('a').isDigit = false := rfl
  have hn : startsWithSectionNumber (List.replicate 5001 'a') false = false := by
    rw [List.replicate_succ]
    unfold startsWithSectionNumber
    rw [headIsDigit, hdig, Bool.and_false, Bool.false_and]
  have hlen : totalLen [(⟨List.replicate 5001 'a'⟩ : String)] = 5001 := by
    unfold totalLen
    rw [List.map_cons, List.map_nil, List.sum_cons, List.sum_nil, hdata,
      List.length_replicate, Nat.add_zero]
  have hstep : sibStep [] (Sibling.node ⟨List.replicate 5001 'a'⟩)
      = some [(⟨List.replicate 5001 'a'⟩ : String)] := by
    rw [sibStep, hdata, hn, if_neg hs, if_neg Bool.false_ne_true, List.nil_append]
  rw [walkSiblings, hstep]
  show 5000 < totalLen (if 5000 < totalLen [(⟨List.replicate 5001 'a'⟩ : String)]
      then [(⟨List.replicate 5001 'a'⟩ : String)]
      else walkSiblings [] [(⟨List.replicate 5001 'a'⟩ : String)])
  rw [hlen, if_pos (by decide : (5000:Nat) < 5001), hlen]
  decide

end MunicodeParser

/-- C6 counterexample: a single prose sibling of 5001 characters is
appended before the cap check fires, so the accumulated body text exceeds
5000 characters; the 5000-character cap bounds when traversal stops, not
the final body size. -/
theorem sibling_cap_cex :
    5000 < MunicodeParser.totalLen
      (MunicodeParser.walkSiblings [.node ⟨List.replicate 5001 'a'⟩] []) :=
  MunicodeParser.walk_cap_cex

/-- C6 (amended): in the sibling-run locator, body accumulation walks the
heading's parent's subsequent siblings in order and stops at the first
heading-div (`phx-name`), docs sibling (`phx-docs`), or sibling whose text
begins with a locator-number pattern — in the claimed scenario exactly the
three prose siblings are included — and traversal stops as soon as the
accumulated total exceeds 5000 characters, so the accumulated body text is
bounded by 5000 plus the length of one sibling's text (it can exceed 5000
by at most the longest sibling text, but no further sibling is consumed
past the cap). -/
theorem sibling_walk_amended :
    (∀ (t1 t2 t3 : String) (sibs : List MunicodeParser.Sibling),
        t1 ≠ "" → t2 ≠ "" → t3 ≠ "" →
        MunicodeParser.startsWithSectionNumber t1.data false = false →
        MunicodeParser.startsWithSectionNumber t2.data false = false →
        MunicodeParser.startsWithSectionNumber t3.data false = false →
        MunicodeParser.totalLen [t1, t2, t3] ≤ 5000 →
        MunicodeParser.walkSiblings
            (.node t1 :: .node t2 :: .node t3 ::
              .div [] "54.070 Next section heading" :: sibs) []
          = [t1, t2, t3]) ∧
    (∀ (sibs : List MunicodeParser.Sibling) (parts : List String),
        MunicodeParser.totalLen parts ≤ 5000 →
        MunicodeParser.totalLen (MunicodeParser.walkSiblings sibs parts)
          ≤ 5000 + MunicodeParser.maxSibLen sibs) :=
  ⟨MunicodeParser.walk_scenario, MunicodeParser.walk_cap⟩

theorem sibling_walk_amended_witness :
    MunicodeParser.walkSiblings
        (.node "x" :: .node "y" :: .node "z" ::
          .div [] "54.070 Next section heading" :: []) [] = ["x", "y", "z"] ∧
    MunicodeParser.totalLen (MunicodeParser.walkSiblings [.inert] [])
      ≤ 5000 + MunicodeParser.maxSibLen [.inert] :=
  ⟨sibling_walk_amended.1 "x" "y" "z" [] (by decide) (by decide) (by decide)
      (by decide) (by decide) (by decide) (by decide),
    sibling_walk_amended.2 [.inert] [] (by decide)⟩

/-! ## `parser_factory.py`: dispatch, and the detection-only platform
parsers (`codepublishing_parser.py`, `civiclinq_parser.py`,
`encodeplus_parser.py`, `amlegal_parser.py`)

`city_info` is a Python dict read with `.get(key, default)`; a strategy is
duck-typed: it may raise, or return a `(success, sections)` tuple, a dict
with an `ethics_sections` list, `None`, or anything else.  The detection
parsers' Playwright fetch is external I/O; their `scrape_city_core` is the
decision logic applied to the fetched page text (and, for Amlegal, the
anchor nodes of the fetched page). -/

structure CityInfo where
  city : Option String := none
  state : Option String := none
  url : Option String := none
  platform : Option String := none

structure SectionRec where
  title : String
  content : String
  url : String
deriving DecidableEq

namespace ParserFactory

inductive SectionsVal where
  | pyNone
  | pyList (l : List SectionRec)
deriving DecidableEq

inductive PyExc where
  | valueError
  | otherExc
deriving DecidableEq

inductive StrategyResult where
  | tup (success : Bool) (sections : SectionsVal)
  | dict (ethics_sections : Option (List SectionRec))
  | pyNone
  | otherValue

def Strategy : Type := CityInfo → Except PyExc StrategyResult

def scrape_city (parsers : String → Option Strategy) (city_info : CityInfo) :
    Bool × SectionsVal :=
  match parsers (city_info.platform.getD "Unknown") with
  | none => (true, .pyList [])
  | some parser =>
    match parser city_info with
    | .error .valueError => (true, .pyList [])
    | .error .otherExc => (false, .pyList [])
    | .ok (.tup s secs) => (s, secs)
    | .ok (.dict es) => (true, .pyList (es.getD []))
    | .ok .pyNone => (true, .pyList [])
    | .ok .otherValue => (true, .pyList [])

end ParserFactory

/-- C4: dispatching a target whose platform has no registered strategy
returns `(true, [])` — `get_parser` raises `ValueError`, the dispatcher's
first handler catches it, and no exception escapes (`scrape_city` is a
total function). -/
theorem unknown_platform_dispatch (parsers : String → Option ParserFactory.Strategy)
    (city : CityInfo)
    (h : parsers (city.platform.getD "Unknown") = none) :
    ParserFactory.scrape_city parsers city
      = (true, ParserFactory.SectionsVal.pyList []) := by
  unfold ParserFactory.scrape_city
  rw [h]

theorem unknown_platform_dispatch_witness :
    ParserFactory.scrape_city (fun _ => none) {}
      = (true, ParserFactory.SectionsVal.pyList []) :=
  unknown_platform_dispatch (fun _ => none) {} rfl

/-- C3 counterexample: a strategy that raises `ValueError` is caught by
the handler meant for unknown platforms, so dispatch returns `(true, [])`
rather than the claimed `(false, [])`. -/
theorem exception_dispatch_cex :
    ParserFactory.scrape_city
        (fun _ => some (fun _ => Except.error ParserFactory.PyExc.valueError))
        ⟨none, none, none, some "P"⟩
      = (true, ParserFactory.SectionsVal.pyList []) ∧
    ParserFactory.scrape_city
        (fun _ => some (fun _ => Except.error ParserFactory.PyExc.valueError))
        ⟨none, none, none, some "P"⟩
      ≠ (false, ParserFactory.SectionsVal.pyList []) :=
  ⟨rfl, by decide⟩

/-- C3 (amended): any exception other than `ValueError` raised by a
strategy is caught at the dispatch boundary and converted to
`(false, [])`; a `ValueError` raised by a strategy is also caught — by
the unknown-platform handler — and yields `(true, [])`.  In either case
no exception propagates (`scrape_city` is a total function). -/
theorem exception_dispatch_amended
    (parsers : String → Option ParserFactory.Strategy)
    (city : CityInfo) (strat : ParserFactory.Strategy)
    (hreg : parsers (city.platform.getD "Unknown") = some strat) :
    (strat city = Except.error ParserFactory.PyExc.otherExc →
      ParserFactory.scrape_city parsers city
        = (false, ParserFactory.SectionsVal.pyList [])) ∧
    (strat city = Except.error ParserFactory.PyExc.valueError →
      ParserFactory.scrape_city parsers city
        = (true, ParserFactory.SectionsVal.pyList [])) := by
  constructor <;> intro he <;> simp [ParserFactory.scrape_city, hreg, he]

theorem exception_dispatch_amended_witness :
    ParserFactory.scrape_city
        (fun _ => some (fun _ => Except.error ParserFactory.PyExc.otherExc)) {}
      = (false, ParserFactory.SectionsVal.pyList []) :=
  (exception_dispatch_amended _ {} _ rfl).1 rfl

structure DetectionResult where
  city : String
  state : String
  url : String
  platform : String
  ethics_sections : List SectionRec
  requires_manual_review : Bool

lemma suffix_infix_data (pre u : String) : u.data <:+: (pre ++ u).data :=
  ⟨pre.data, [], by simp⟩

namespace CodePublishingParser

def ETHICS_TERMS : List String :=
  ["ethic", "conflict of interest", "financial disclosure",
   "code of conduct", "prohibited interest"]

def search_for_ethics_sections (text : String) : Bool :=
  ETHICS_TERMS.any (fun term => pySubstr term.data (pyLower text).data)

def scrape_city_core (city_info : CityInfo) (page_text : String) :
    Option DetectionResult :=
  let city_name := city_info.city.getD "Unknown"
  let state := city_info.state.getD "Unknown"
  let url := city_info.url.getD ""
  if search_for_ethics_sections page_text then
    some { city := city_name, state := state, url := url,
           platform := "Code Publishing",
           ethics_sections :=
             [{ title := "Ethics Content Detected",
                content := "Ethics-related content found in " ++ city_name
                  ++ " code. "
                  ++ "Code Publishing platform requires manual review at: " ++ url,
                url := url }],
           requires_manual_review := true }
  else none

end CodePublishingParser

theorem codepublishing_probe (ci : CityInfo) (pt : String)
    (h : CodePublishingParser.search_for_ethics_sections pt = true) :
    ∃ r, CodePublishingParser.scrape_city_core ci pt = some r ∧
      r.requires_manual_review = true ∧ r.ethics_sections.length = 1 ∧
      ∀ rec ∈ r.ethics_sections, rec.content ≠ "" ∧
        (ci.url.getD "").data <:+: rec.content.data := by
  simp only [CodePublishingParser.scrape_city_core, h, if_true]
  refine ⟨_, rfl, rfl, rfl, ?_⟩
  intro rec hrec
  simp only [List.mem_singleton] at hrec
  subst hrec
  constructor
  · intro heq
    have hlen := congrArg String.length heq
    simp only [String.length_append,
      (show ("" : String).length = 0 from rfl)] at hlen
    have h0 : 0 < ("Ethics-related content found in ").length := by decide
    omega
  · exact suffix_infix_data _ _

namespace CivicLinQParser

def ETHICS_TERMS : List String :=
  ["ethic", "conflict of interest", "financial disclosure",
   "code of conduct", "prohibited interest"]

def search_for_ethics_sections (text : String) : Bool :=
  ETHICS_TERMS.any (fun term => pySubstr term.data (pyLower text).data)

def scrape_city_core (city_info : CityInfo) (page_text : String) :
    Option DetectionResult :=
  let city_name := city_info.city.getD "Unknown"
  let state := city_info.state.getD "Unknown"
  let url := city_info.url.getD ""
  if search_for_ethics_sections page_text then
    some { city := city_name, state := state, url := url,
           platform := "CivicLinQ",
           ethics_sections :=
             [{ title := "Ethics Content Detected",
                content := "Ethics-related content found in " ++ city_name
                  ++ " code. "
                  ++ "CivicLinQ platform requires manual review at: " ++ url,
                url := url }],
           requires_manual_review := true }
  else none

end CivicLinQParser

theorem civiclinq_probe (ci : CityInfo) (pt : String)
    (h : CivicLinQParser.search_for_ethics_sections pt = true) :
    ∃ r, CivicLinQParser.scrape_city_core ci pt = some r ∧
      r.requires_manual_review = true ∧ r.ethics_sections.length = 1 ∧
      ∀ rec ∈ r.ethics_sections, rec.content ≠ "" ∧
        (ci.url.getD "").data <:+: rec.content.data := by
  simp only [CivicLinQParser.scrape_city_core, h, if_true]
  refine ⟨_, rfl, rfl, rfl, ?_⟩
  intro rec hrec
  simp only [List.mem_singleton] at hrec
  subst hrec
  constructor
  · intro heq
    have hlen := congrArg String.length heq
    simp only [String.length_append,
      (show ("" : String).length = 0 from rfl)] at hlen
    have h0 : 0 < ("Ethics-related content found in ").length := by decide
    omega
  · exact suffix_infix_data _ _

namespace EncodePlusParser

def ETHICS_TERMS : List String :=
  ["ethic", "conflict of interest", "financial disclosure",
   "code of conduct", "prohibited interest"]

def search_for_ethics_sections (text : String) : Bool :=
  ETHICS_TERMS.any (fun term => pySubstr term.data (pyLower text).data)

def scrape_city_core (city_info : CityInfo) (page_text : String) :
    Option DetectionResult :=
  let city_name := city_info.city.getD "Unknown"
  let state := city_info.state.getD "Unknown"
  let url := city_info.url.getD ""
  if search_for_ethics_sections page_text then
    some { city := city_name, state := state, url := url,
           platform := "EncodePlus",
           ethics_sections :=
             [{ title := "Ethics Content Detected",
                content := "Ethics-related content found in " ++ city_name
                  ++ " code. "
                  ++ "EncodePlus platform requires manual review at: " ++ url,
                url := url }],
           requires_manual_review := true }
  else none

end EncodePlusParser

theorem encodeplus_probe (ci : CityInfo) (pt : String)
    (h : EncodePlusParser.search_for_ethics_sections pt = true) :
    ∃ r, EncodePlusParser.scrape_city_core ci pt = some r ∧
      r.requires_manual_review = true ∧ r.ethics_sections.length = 1 ∧
      ∀ rec ∈ r.ethics_sections, rec.content ≠ "" ∧
        (ci.url.getD "").data <:+: rec.content.data := by
  simp only [EncodePlusParser.scrape_city_core, h, if_true]
  refine ⟨_, rfl, rfl, rfl, ?_⟩
  intro rec hrec
  simp only [List.mem_singleton] at hrec
  subst hrec
  constructor
  · intro heq
    have hlen := congrArg String.length heq
    simp only [String.length_append,
      (show ("" : String).length = 0 from rfl)] at hlen
    have h0 : 0 < ("Ethics-related content found in ").length := by decide
    omega
  · exact suffix_infix_data _ _

namespace AmlegalParser

def ETHICS_TERMS : List String :=
  ["ethic", "conflict of interest", "financial disclosure",
   "code of conduct", "prohibited interest"]

def search_for_ethics_sections (text : String) : Bool :=
  ETHICS_TERMS.any (fun term => pySubstr term.data (pyLower text).data)

structure AnchorNode where
  text : String
  href : String

def ethics_links (url : String) (links : List AnchorNode) :
    List (String × String) :=
  links.filterMap (fun link =>
    if link.text ≠ "" ∧ search_for_ethics_sections link.text = true then
      some (link.text, if link.href.startsWith "http" then link.href else url)
    else none)

def scrape_city_core (city_info : CityInfo) (page_text : String)
    (links : List AnchorNode) : Option DetectionResult :=
  let city_name := city_info.city.getD "Unknown"
  let state := city_info.state.getD "Unknown"
  let url := city_info.url.getD ""
  if search_for_ethics_sections page_text then
    let els := ethics_links url links
    if els ≠ [] then
      some { city := city_name, state := state, url := url,
             platform := "Amlegal",
             ethics_sections :=
               [{ title := "Ethics Code Detected in TOC",
                  content := "Amlegal platform detected ethics-related sections:\n\n"
                    ++ String.intercalate "\n"
                        ((els.take 5).map (fun l => "- " ++ l.1))
                    ++ "\n\nNote: Amlegal uses heavy JavaScript rendering. "
                    ++ "Full content extraction requires manual review at: " ++ url,
                  url := url }],
             requires_manual_review := true }
    else
      some { city := city_name, state := state, url := url,
             platform := "Amlegal",
             ethics_sections :=
               [{ title := "Ethics Content Detected",
                  content := "Ethics-related content found in " ++ city_name
                    ++ " code. " ++ "Manual review required at: " ++ url,
                  url := url }],
             requires_manual_review := true }
  else none

end AmlegalParser

theorem amlegal_probe (ci : CityInfo) (pt : String)
    (links : List AmlegalParser.AnchorNode)
    (h : AmlegalParser.search_for_ethics_sections pt = true)
    (hl : AmlegalParser.ethics_links (ci.url.getD "") links = []) :
    ∃ r, AmlegalParser.scrape_city_core ci pt links = some r ∧
      r.requires_manual_review = true ∧ r.ethics_sections.length = 1 ∧
      ∀ rec ∈ r.ethics_sections, rec.content ≠ "" ∧
        (ci.url.getD "").data <:+: rec.content.data := by
  simp only [AmlegalParser.scrape_city_core, h, if_true, hl, ne_eq,
    not_true_eq_false, if_false]
  refine ⟨_, rfl, rfl, rfl, ?_⟩
  intro rec hrec
  simp only [List.mem_singleton] at hrec
  subst hrec
  constructor
  · intro heq
    have hlen := congrArg String.length heq
    simp only [String.length_append,
      (show ("" : String).length = 0 from rfl)] at hlen
    have h0 : 0 < ("Ethics-related content found in ").length := by decide
    omega
  · exact suffix_infix_data _ _

/-- C7: each detection-only strategy (Code Publishing, CivicLinQ,
EncodePlus, and Amlegal when no matching sub-links are found), given
fetched page text containing one of its ethics terms, returns exactly one
section record, with `requires_manual_review = true` on the result and a
non-empty synthetic body containing the source URL. -/
theorem detection_only_degraded :
    (∀ (ci : CityInfo) (pt : String),
      CodePublishingParser.search_for_ethics_sections pt = true →
      ∃ r, CodePublishingParser.scrape_city_core ci pt = some r ∧
        r.requires_manual_review = true ∧ r.ethics_sections.length = 1 ∧
        ∀ rec ∈ r.ethics_sections, rec.content ≠ "" ∧
          (ci.url.getD "").data <:+: rec.content.data) ∧
    (∀ (ci : CityInfo) (pt : String),
      CivicLinQParser.search_for_ethics_sections pt = true →
      ∃ r, CivicLinQParser.scrape_city_core ci pt = some r ∧
        r.requires_manual_review = true ∧ r.ethics_sections.length = 1 ∧
        ∀ rec ∈ r.ethics_sections, rec.content ≠ "" ∧
          (ci.url.getD "").data <:+: rec.content.data) ∧
    (∀ (ci : CityInfo) (pt : String),
      EncodePlusParser.search_for_ethics_sections pt = true →
      ∃ r, EncodePlusParser.scrape_city_core ci pt = some r ∧
        r.requires_manual_review = true ∧ r.ethics_sections.length = 1 ∧
        ∀ rec ∈ r.ethics_sections, rec.content ≠ "" ∧
          (ci.url.getD "").data <:+: rec.content.data) ∧
    (∀ (ci : CityInfo) (pt : String) (links : List AmlegalParser.AnchorNode),
      AmlegalParser.search_for_ethics_sections pt = true →
      AmlegalParser.ethics_links (ci.url.getD "") links = [] →
      ∃ r, AmlegalParser.scrape_city_core ci pt links = some r ∧
        r.requires_manual_review = true ∧ r.ethics_sections.length = 1 ∧
        ∀ rec ∈ r.ethics_sections, rec.content ≠ "" ∧
          (ci.url.getD "").data <:+: rec.content.data) :=
  ⟨codepublishing_probe, civiclinq_probe, encodeplus_probe, amlegal_probe⟩

theorem detection_only_degraded_witness :
    (∃ r, CodePublishingParser.scrape_city_core
        ⟨none, none, some "http://cp", none⟩ "city ethics page" = some r ∧
      r.requires_manual_review = true ∧ r.ethics_sections.length = 1 ∧
      ∀ rec ∈ r.ethics_sections, rec.content ≠ "" ∧
        ("http://cp").data <:+: rec.content.data) ∧
    (∃ r, CivicLinQParser.scrape_city_core
        ⟨none, none, some "http://cl", none⟩ "city ethics page" = some r ∧
      r.requires_manual_review = true ∧ r.ethics_sections.length = 1 ∧
      ∀ rec ∈ r.ethics_sections, rec.content ≠ "" ∧
        ("http://cl").data <:+: rec.content.data) ∧
    (∃ r, EncodePlusParser.scrape_city_core
        ⟨none, none, some "http://ep", none⟩ "city ethics page" = some r ∧
      r.requires_manual_review = true ∧ r.ethics_sections.length = 1 ∧
      ∀ rec ∈ r.ethics_sections, rec.content ≠ "" ∧
        ("http://ep").data <:+: rec.content.data) ∧
    (∃ r, AmlegalParser.scrape_city_core
        ⟨none, none, some "http://am", none⟩ "city ethics page" [] = some r ∧
      r.requires_manual_review = true ∧ r.ethics_sections.length = 1 ∧
      ∀ rec ∈ r.ethics_sections, rec.content ≠ "" ∧
        ("http://am").data <:+: rec.content.data) :=
  ⟨detection_only_degraded.1 ⟨none, none, some "http://cp", none⟩
      "city ethics page" (by decide),
    detection_only_degraded.2.1 ⟨none, none, some "http://cl", none⟩
      "city ethics page" (by decide),
    detection_only_degraded.2.2.1 ⟨none, none, some "http://ep", none⟩
      "city ethics page" (by decide),
    detection_only_degraded.2.2.2 ⟨none, none, some "http://am", none⟩
      "city ethics page" [] (by decide) rfl⟩

structure ProgressTracker where
  total : Nat
  completed : Nat
  successful : Nat
  failed : Nat
  with_ethics : Nat
  without_ethics : Nat

def ProgressTracker.start (total : Nat) : ProgressTracker :=
  ⟨total, 0, 0, 0, 0, 0⟩

def ProgressTracker.update (t : ProgressTracker) (success has_ethics : Bool) :
    ProgressTracker :=
  let t1 := { t with completed := t.completed + 1 }
  if success then
    let t2 := { t1 with successful := t1.successful + 1 }
    if has_ethics then { t2 with with_ethics := t2.with_ethics + 1 }
    else { t2 with without_ethics := t2.without_ethics + 1 }
  else { t1 with failed := t1.failed + 1 }

def ProgressTracker.runUpdates (t : ProgressTracker)
    (us : List (Bool × Bool)) : ProgressTracker :=
  us.foldl (fun acc u => acc.update u.1 u.2) t

def trackerInv (t : ProgressTracker) : Prop :=
  t.completed = t.successful + t.failed ∧
    t.successful = t.with_ethics + t.without_ethics

lemma tracker_update_inv (t : ProgressTracker) (s h : Bool)
    (hI : trackerInv t) : trackerInv (t.update s h) := by
  obtain ⟨a, b⟩ := hI
  cases s <;> cases h <;>
    simp [ProgressTracker.update, trackerInv] <;> omega

lemma tracker_update_completed (t : ProgressTracker) (s h : Bool) :
    (t.update s h).completed = t.completed + 1 := by
  cases s <;> cases h <;> simp [ProgressTracker.update]

lemma tracker_run (us : List (Bool × Bool)) (t : ProgressTracker) :
    (t.runUpdates us).completed = t.completed + us.length ∧
      (trackerInv t → trackerInv (t.runUpdates us)) := by
  induction us generalizing t with
  | nil => simp [ProgressTracker.runUpdates]
  | cons u us ih =>
    have hrw : t.runUpdates (u :: us) = (t.update u.1 u.2).runUpdates us := by
      simp [ProgressTracker.runUpdates]
    rw [hrw]
    constructor
    · rw [(ih (t.update u.1 u.2)).1, tracker_update_completed]
      simp [List.length_cons]
      omega
    · intro hI
      exact (ih (t.update u.1 u.2)).2 (tracker_update_inv t u.1 u.2 hI)

/-- C10: from any starting total, after any finite sequence of
`update(success, has_ethics)` calls, `completed = successful + failed`,
`successful = with_ethics + without_ethics`, and `completed` equals the
number of calls made. -/
theorem progress_tracker_invariant (total : Nat) (us : List (Bool × Bool)) :
    (ProgressTracker.runUpdates (ProgressTracker.start total) us).completed
        = (ProgressTracker.runUpdates (ProgressTracker.start total) us).successful
          + (ProgressTracker.runUpdates (ProgressTracker.start total) us).failed ∧
      (ProgressTracker.runUpdates (ProgressTracker.start total) us).successful
        = (ProgressTracker.runUpdates (ProgressTracker.start total) us).with_ethics
          + (ProgressTracker.runUpdates (ProgressTracker.start total) us).without_ethics ∧
      (ProgressTracker.runUpdates (ProgressTracker.start total) us).completed
        = us.length := by
  have h := tracker_run us (ProgressTracker.start total)
  have hI := h.2 ⟨rfl, rfl⟩
  exact ⟨hI.1, hI.2, by rw [h.1]; simp [ProgressTracker.start]⟩
